import Mathlib

/-!
# seisen: note loader and random picker

A shallow embedding of `src/main.c`.

* `char notes[100][256]` is a table of 100 rows of 256 bytes, `int notes_count`
  an integer; together they form `State`.
* A file stream is the list of bytes it still has to deliver; `fopen` is a
  function from paths to `Option` of such a list (`none`: the open fails).
* Undefined behaviour of the C program (a store outside the table, a string
  longer than its row, a modulo by zero) is an explicit `Fault`.
* `rand` is a parameter: a step function on an abstract generator state.
-/

namespace Seisen

/-- A `char`. -/
abbrev Byte := UInt8

/-- The newline character. -/
def NL : Byte := 10

/-- One `char[256]` array: its 256 bytes in order. -/
structure Row where
  bytes : List Byte
  size : bytes.length = 256

/-- The globals of `main.c`: `char notes[100][256]` and `int notes_count`. -/
structure State where
  notes : Fin 100 → Row
  notes_count : Int

/-- Static storage is zero-initialised, and `notes_count = 0`. -/
def init : State :=
  { notes := fun _ => ⟨List.replicate 256 0, List.length_replicate 256 0⟩
    notes_count := 0 }

/-- What the C standard leaves undefined, plus the loop budget of the model. -/
inductive Fault where
  | outOfBounds (index : Int)
  | overrun
  | divByZero
  | fuelExhausted
  deriving DecidableEq, Repr

/-- The value of a `const char *` the program returns: the address of a string
literal, or the address of row `i` of `notes`. -/
inductive Ptr where
  | literal (text : String)
  | row (i : Fin 100)
  deriving DecidableEq, Repr

/-- The C string held by an array of bytes: the bytes before the first NUL. -/
def cstr (a : List Byte) : List Byte :=
  a.takeWhile (fun b => b != 0)

/-- The note stored in row `i`: the C string found there. -/
def noteAt (st : State) (i : Fin 100) : List Byte :=
  cstr (st.notes i).bytes

/-- The row `notes[i]` for a C `int` index `i`: defined when `0 <= i < 100`. -/
def rowIndex (i : Int) : Option (Fin 100) :=
  if h : 0 ≤ i ∧ i < 100 then some ⟨i.toNat, by omega⟩ else none

/-- The reading part of `fgets`: take bytes from the stream while there is
room, stopping after a newline or at end of file. Gives the bytes read and
the rest of the stream. -/
def readLine : Nat → List Byte → List Byte × List Byte
  | 0, s => ([], s)
  | _ + 1, [] => ([], [])
  | room + 1, b :: s =>
    if b = NL then ([b], s)
    else ((b :: (readLine room s).1), (readLine room s).2)

/-- The call `fgets(buffer, size, file)`: `none` (NULL) when the stream is at end of
file before any byte is read; otherwise at most `size - 1` bytes are read
(see `readLine`), and the buffer then holds these bytes followed by a NUL. -/
def fgets (size : Nat) (file : List Byte) : Option (List Byte × List Byte) :=
  match file with
  | [] => none
  | _ :: _ => some (readLine (size - 1) file)

/-- The call `strcpy(dst, src)` into a row: the string of `src` and its NUL replace the
start of `dst`, the bytes of `dst` after them stay. `none` when the string
and its NUL do not fit the 256 bytes of the row. The loop passes a `src` that
ends with a NUL, as `fgets` leaves the buffer. -/
def strcpy (dst : Row) (src : List Byte) : Option Row :=
  if h : (cstr src).length < 256 then
    some ⟨cstr src ++ 0 :: dst.bytes.drop ((cstr src).length + 1), by
      simp only [List.length_append, List.length_cons, List.length_drop, dst.size]
      omega⟩
  else none

/-- The body of the loop: `strcpy(notes[notes_count], buffer); notes_count++;`
where the buffer holds `line` followed by a NUL. The increment cannot overflow:
it is reached only with `notes_count < 100`. -/
def storeLine (st : State) (line : List Byte) : Except Fault State :=
  match rowIndex st.notes_count with
  | none => .error (.outOfBounds st.notes_count)
  | some i =>
    match strcpy (st.notes i) (line ++ [0]) with
    | none => .error .overrun
    | some r =>
      .ok { notes := Function.update st.notes i r
            notes_count := st.notes_count + 1 }

/-- The loop of `seisen_load_notes`:
`while (fgets(buffer, sizeof(buffer), file)) { ... }` with
`sizeof(buffer) = 256` and the body `storeLine`. The first argument bounds the
number of iterations. -/
def loadLoop : Nat → List Byte → State → Except Fault State
  | 0, _, _ => .error .fuelExhausted
  | fuel + 1, file, st =>
    match fgets 256 file with
    | none => .ok st
    | some (line, rest) =>
      match storeLine st line with
      | .error e => .error e
      | .ok st' => loadLoop fuel rest st'

/-- The message of the `printf` on the failure path. -/
def openDiagnostic : String := "impossible d'ouvrir le fichier !"

/-- The function `seisen_load_notes(filepath)`. Gives the new globals and the text written
to standard output. Each iteration of the loop reads at least one byte, so
`file.length + 1` iterations are a budget the loop cannot use up. -/
def seisen_load_notes (fopen : String → Option (List Byte)) (filepath : String)
    (st : State) : Except Fault (State × String) :=
  match fopen filepath with
  | none => .ok (st, openDiagnostic)
  | some file =>
    match loadLoop (file.length + 1) file st with
    | .error e => .error e
    | .ok st' => .ok (st', "")

/-- The C operator `%` on `int`: truncated remainder, undefined for a zero
divisor. -/
def cmod (a b : Int) : Except Fault Int :=
  if b = 0 then .error .divByZero else .ok (Int.tmod a b)

/-- The string literal returned for an empty collection. -/
def sentinel : String := "Aucune note disponible"

/-- The function `seisen_get_note()`. `rand` is the library generator, a step on its hidden
state `g` giving a value `r >= 0`. Gives the returned pointer (or the fault)
and the generator state after the call. -/
def seisen_get_note {G : Type} (rand : G → Nat × G) (g : G) (st : State) :
    Except Fault Ptr × G :=
  if st.notes_count = 0 then (.ok (.literal sentinel), g)
  else
    match cmod ((rand g).1 : Int) st.notes_count with
    | .error e => (.error e, (rand g).2)
    | .ok ligne =>
      match rowIndex ligne with
      | none => (.error (.outOfBounds ligne), (rand g).2)
      | some i => (.ok (.row i), (rand g).2)

/-- The row chosen by `seisen_get_note` when the generator delivers `r`. -/
def chosenRow (r : Nat) (st : State) : Option (Fin 100) :=
  match (seisen_get_note (fun (_ : Unit) => (r, ())) () st).1 with
  | .ok (.row i) => some i
  | _ => none

/-- The number of generator values `r` in `[0, randMax]` for which
`seisen_get_note` returns row `i`. -/
def hits (randMax : Nat) (st : State) (i : Fin 100) : Nat :=
  Nat.count (fun r => chosenRow r st = some i) (randMax + 1)

/-- The successive strings `fgets(buffer, 256, file)` delivers until it
returns NULL. -/
def fgetsAll : Nat → List Byte → List (List Byte)
  | 0, _ => []
  | fuel + 1, file =>
    match fgets 256 file with
    | none => []
    | some (line, rest) => line :: fgetsAll fuel rest

/-- The strings the loop of `seisen_load_notes` copies for a file. -/
def chunks (file : List Byte) : List (List Byte) :=
  fgetsAll (file.length + 1) file

/-- The bytes of an ASCII string. -/
def ascii (s : String) : List Byte :=
  s.toList.map (fun c => c.toNat.toUInt8)

/-- A file system holding one file. -/
def oneFile (path : String) (content : List Byte) : String → Option (List Byte) :=
  fun p => if p = path then some content else none

/-- The state `seisen_load_notes` ends in, when it ends without fault. -/
def loaded (fopen : String → Option (List Byte)) (filepath : String) (st : State) :
    Option State :=
  match seisen_load_notes fopen filepath st with
  | .ok (st', _) => some st'
  | .error _ => none

/-- The loop body run once for each string of a list, in order. -/
def storeAll : List (List Byte) → State → Except Fault State
  | [], st => .ok st
  | line :: more, st =>
    match storeLine st line with
    | .error e => .error e
    | .ok st' => storeAll more st'

/-- A well-formed terminated line: at most 254 bytes, none of them a newline
or a NUL, followed by a newline. -/
def WellFormedLine (l : List Byte) : Prop :=
  l.getLast? = some NL ∧ l.length ≤ 255 ∧ NL ∉ l.dropLast ∧ (0 : Byte) ∉ l

instance : DecidablePred WellFormedLine := fun l => by
  unfold WellFormedLine; infer_instance

/-- A well-formed last line without terminator: between 1 and 254 bytes, none
of them a newline or a NUL. -/
def UnterminatedLine (l : List Byte) : Prop :=
  l ≠ [] ∧ l.length ≤ 254 ∧ NL ∉ l ∧ (0 : Byte) ∉ l

instance : DecidablePred UnterminatedLine := fun l => by
  unfold UnterminatedLine; infer_instance

/-- The lines of a well-formed file: every line is a `WellFormedLine`, except
that the last one may be an `UnterminatedLine`. -/
def WellFormedFile : List (List Byte) → Prop
  | [] => True
  | l :: more => (WellFormedLine l ∨ (more = [] ∧ UnterminatedLine l)) ∧ WellFormedFile more

instance : DecidablePred WellFormedFile := fun ls => by
  induction ls with
  | nil => unfold WellFormedFile; infer_instance
  | cons l more ih => unfold WellFormedFile; infer_instance

/-- The three notes of the scenario of the specification. -/
def scenario : List (List Byte) :=
  [ascii "Believe in yourself\n", ascii "Take a break\n", ascii "You did great\n"]

/-- A second file, whose last line has no newline. -/
def secondFile : List (List Byte) :=
  [ascii "Drink water\n", ascii "Stretch"]

/-- A file system holding the two files above. -/
def twoFiles : String → Option (List Byte) :=
  fun p =>
    if p = "a.txt" then some scenario.flatten
    else if p = "b.txt" then some secondFile.flatten
    else none

/-- One line of 255 bytes `a` and its newline. -/
def line255 : List Byte := List.replicate 255 97 ++ [NL]

/-- A file of 101 lines `a`. -/
def lines101 : List Byte := (List.replicate 101 [97, NL]).flatten

/-- A file system holding `a.txt`, the one line `line255`, and the empty file
`b.txt`. -/
def overlongThenEmpty : String → Option (List Byte) :=
  fun p =>
    if p = "a.txt" then some line255
    else if p = "b.txt" then some []
    else none

/-- A collection of `n` notes over zeroed rows. -/
def withCount (n : Int) : State := { init with notes_count := n }

/-! ## Reading: `readLine`, `fgets`, `chunks` -/

theorem readLine_append (room : Nat) (s : List Byte) :
    (readLine room s).1 ++ (readLine room s).2 = s := by
  induction room generalizing s with
  | zero => simp [readLine]
  | succ k ih =>
    cases s with
    | nil => simp [readLine]
    | cons b t =>
      by_cases hb : b = NL
      · simp [readLine, hb]
      · simp [readLine, hb, ih t]

theorem readLine_length_le (room : Nat) (s : List Byte) :
    (readLine room s).1.length ≤ room := by
  induction room generalizing s with
  | zero => simp [readLine]
  | succ k ih =>
    cases s with
    | nil => simp [readLine]
    | cons b t =>
      by_cases hb : b = NL
      · simp [readLine, hb]
      · simpa [readLine, hb] using ih t

theorem readLine_pos (room : Nat) (b : Byte) (t : List Byte) :
    0 < (readLine (room + 1) (b :: t)).1.length := by
  by_cases hb : b = NL <;> simp [readLine, hb]

theorem readLine_rest_le (room : Nat) (s : List Byte) :
    (readLine room s).2.length ≤ s.length := by
  have h := congrArg List.length (readLine_append room s)
  rw [List.length_append] at h
  omega

theorem readLine_rest_lt (room : Nat) (b : Byte) (t : List Byte) :
    (readLine (room + 1) (b :: t)).2.length < (b :: t).length := by
  have h := congrArg List.length (readLine_append (room + 1) (b :: t))
  have h1 := readLine_pos room b t
  rw [List.length_append] at h
  omega

/-- A string that `readLine` gives with bytes left in the stream ends with a
newline, or fills the room without holding a newline. -/
theorem readLine_shape (room : Nat) (s : List Byte)
    (hrest : (readLine room s).2 ≠ []) :
    (readLine room s).1.getLast? = some NL ∨
      ((readLine room s).1.length = room ∧ NL ∉ (readLine room s).1) := by
  induction room generalizing s with
  | zero => simp [readLine]
  | succ k ih =>
    cases s with
    | nil => simp [readLine] at hrest
    | cons b t =>
      by_cases hb : b = NL
      · left; simp [readLine, hb]
      · simp only [readLine, hb, if_false] at hrest ⊢
        rcases ih t hrest with h | ⟨h1, h2⟩
        · left
          rw [List.getLast?_cons, h]; rfl
        · right
          refine ⟨by simp [h1], ?_⟩
          simp only [List.mem_cons, not_or]
          exact ⟨fun e => hb e.symm, h2⟩

/-- A line that fits the room is read whole, newline included. -/
theorem readLine_line (room : Nat) (content rest : List Byte)
    (hnl : NL ∉ content) (hlen : content.length < room) :
    readLine room (content ++ NL :: rest) = (content ++ [NL], rest) := by
  induction content generalizing room with
  | nil =>
    cases room with
    | zero => simp at hlen
    | succ k => simp [readLine]
  | cons b t ih =>
    cases room with
    | zero => simp at hlen
    | succ k =>
      simp only [List.mem_cons, not_or] at hnl
      have hb : b ≠ NL := fun e => hnl.1 e.symm
      simp only [List.length_cons, Nat.add_lt_add_iff_right] at hlen
      simp [readLine, hb, ih k hnl.2 hlen]

/-- A last line without newline that fits the room is read whole. -/
theorem readLine_eof (room : Nat) (content : List Byte)
    (hnl : NL ∉ content) (hlen : content.length ≤ room) :
    readLine room content = (content, []) := by
  induction content generalizing room with
  | nil => cases room <;> simp [readLine]
  | cons b t ih =>
    cases room with
    | zero => simp at hlen
    | succ k =>
      simp only [List.mem_cons, not_or] at hnl
      have hb : b ≠ NL := fun e => hnl.1 e.symm
      simp only [List.length_cons, Nat.add_le_add_iff_right] at hlen
      simp [readLine, hb, ih k hnl.2 hlen]

theorem fgets_nil : fgets 256 [] = none := rfl

theorem fgets_cons (b : Byte) (t : List Byte) :
    fgets 256 (b :: t) = some (readLine 255 (b :: t)) := rfl

theorem readLine_255_rest_lt (b : Byte) (t : List Byte) :
    (readLine 255 (b :: t)).2.length < t.length + 1 :=
  readLine_rest_lt 254 b t

theorem fgetsAll_succ_cons (fuel : Nat) (b : Byte) (t : List Byte) :
    fgetsAll (fuel + 1) (b :: t) =
      (readLine 255 (b :: t)).1 :: fgetsAll fuel (readLine 255 (b :: t)).2 := rfl

theorem fgetsAll_fuel (f1 f2 : Nat) (file : List Byte)
    (h1 : file.length < f1) (h2 : file.length < f2) :
    fgetsAll f1 file = fgetsAll f2 file := by
  induction f1 generalizing f2 file with
  | zero => omega
  | succ k ih =>
    cases f2 with
    | zero => omega
    | succ m =>
      cases file with
      | nil => simp [fgetsAll, fgets_nil]
      | cons b t =>
        have hr := readLine_255_rest_lt b t
        rw [fgetsAll_succ_cons, fgetsAll_succ_cons]
        simp only [List.length_cons] at h1 h2
        rw [ih m _ (by omega) (by omega)]

theorem fgetsAll_eq_chunks (fuel : Nat) (file : List Byte) (h : file.length < fuel) :
    fgetsAll fuel file = chunks file :=
  fgetsAll_fuel fuel (file.length + 1) file h (Nat.lt_succ_self _)

theorem chunks_nil : chunks [] = [] := rfl

theorem chunks_cons (b : Byte) (t : List Byte) :
    chunks (b :: t) =
      (readLine 255 (b :: t)).1 :: chunks (readLine 255 (b :: t)).2 := by
  have hr := readLine_255_rest_lt b t
  rw [chunks, List.length_cons]
  rw [fgetsAll_succ_cons, fgetsAll_eq_chunks _ _ hr]

/-- The loop stores what `fgets` delivers: with enough budget it is `storeAll`
on the `chunks` of the file. -/
theorem loadLoop_eq_storeAll (fuel : Nat) (file : List Byte) (st : State)
    (h : file.length < fuel) :
    loadLoop fuel file st = storeAll (chunks file) st := by
  induction fuel generalizing file st with
  | zero => omega
  | succ k ih =>
    cases file with
    | nil => simp [loadLoop, fgets_nil, chunks_nil, storeAll]
    | cons b t =>
      have hr := readLine_255_rest_lt b t
      simp only [List.length_cons] at h
      rw [chunks_cons]
      simp only [loadLoop, fgets_cons, storeAll]
      cases storeLine st (readLine 255 (b :: t)).1 with
      | error e => rfl
      | ok st1 => exact ih _ st1 (by omega)

theorem fgetsAll_flatten (fuel : Nat) (file : List Byte) (h : file.length < fuel) :
    (fgetsAll fuel file).flatten = file := by
  induction fuel generalizing file with
  | zero => omega
  | succ k ih =>
    cases file with
    | nil => rfl
    | cons b t =>
      have hr := readLine_255_rest_lt b t
      simp only [List.length_cons] at h
      rw [fgetsAll_succ_cons, List.flatten_cons, ih _ (by omega)]
      exact readLine_append 255 (b :: t)

theorem fgetsAll_length_bounds (fuel : Nat) (file : List Byte) :
    ∀ c ∈ fgetsAll fuel file, 1 ≤ c.length ∧ c.length ≤ 255 := by
  induction fuel generalizing file with
  | zero => simp [fgetsAll]
  | succ k ih =>
    cases file with
    | nil => simp [fgetsAll, fgets_nil]
    | cons b t =>
      rw [fgetsAll_succ_cons]
      intro c hc
      rcases List.mem_cons.mp hc with rfl | hc
      · exact ⟨readLine_pos 254 b t, readLine_length_le 255 (b :: t)⟩
      · exact ih _ c hc

theorem fgetsAll_nil_stream (fuel : Nat) : fgetsAll fuel [] = [] := by
  cases fuel <;> rfl

theorem fgetsAll_shape (fuel : Nat) (file : List Byte) (i : Nat)
    (h : i + 1 < (fgetsAll fuel file).length) :
    ((fgetsAll fuel file)[i]).getLast? = some NL ∨
      (((fgetsAll fuel file)[i]).length = 255 ∧ NL ∉ (fgetsAll fuel file)[i]) := by
  induction fuel generalizing file i with
  | zero => simp [fgetsAll] at h
  | succ k ih =>
    cases file with
    | nil => simp [fgetsAll, fgets_nil] at h
    | cons b t =>
      simp only [fgetsAll_succ_cons, List.length_cons] at h
      simp only [fgetsAll_succ_cons]
      cases i with
      | zero =>
        simp only [List.getElem_cons_zero]
        apply readLine_shape
        intro hnil
        rw [hnil, fgetsAll_nil_stream] at h
        simp at h
      | succ j =>
        simp only [List.getElem_cons_succ]
        exact ih _ j (by omega)

/-! ## Strings and rows: `cstr`, `strcpy`, `storeLine` -/

theorem cstr_of_no_nul (l : List Byte) (h : (0 : Byte) ∉ l) : cstr l = l := by
  unfold cstr
  rw [List.takeWhile_eq_self_iff]
  intro b hb
  simp only [bne_iff_ne, ne_eq]
  rintro rfl
  exact h hb

theorem cstr_append_nul (l t : List Byte) : cstr (l ++ 0 :: t) = cstr l := by
  induction l with
  | nil => simp [cstr]
  | cons b m ih =>
    unfold cstr at ih ⊢
    by_cases hb : b = 0
    · simp [List.takeWhile_cons, hb]
    · simp [List.takeWhile_cons, hb, ih]

theorem cstr_idem_append (l t : List Byte) : cstr (cstr l ++ 0 :: t) = cstr l := by
  induction l with
  | nil => simp [cstr]
  | cons b m ih =>
    unfold cstr at ih ⊢
    by_cases hb : b = 0
    · simp [List.takeWhile_cons, hb]
    · simp [List.takeWhile_cons, hb, ih]

theorem cstr_length_le (l : List Byte) : (cstr l).length ≤ l.length := by
  unfold cstr
  exact (List.takeWhile_sublist _).length_le

/-- Copying a string of at most 255 bytes succeeds, and the row then holds
that string. -/
theorem strcpy_fits (dst : Row) (line : List Byte) (h : (cstr line).length ≤ 255) :
    ∃ r, strcpy dst (line ++ [0]) = some r ∧ cstr r.bytes = cstr line := by
  have hc : cstr (line ++ [0]) = cstr line := cstr_append_nul line []
  have hlt : (cstr (line ++ [0])).length < 256 := by rw [hc]; omega
  refine ⟨_, dif_pos hlt, ?_⟩
  simp only [hc]
  exact cstr_idem_append line _

theorem rowIndex_natCast (c : Nat) (h : c < 100) : rowIndex (c : Int) = some ⟨c, h⟩ := by
  unfold rowIndex
  rw [dif_pos ⟨by omega, by omega⟩]
  simp

theorem rowIndex_none (i : Int) (h : 100 ≤ i) : rowIndex i = none := by
  unfold rowIndex
  rw [dif_neg (by omega)]

/-- One run of the loop body in a collection with a free row. -/
theorem storeLine_ok (st : State) (line : List Byte) (c : Nat)
    (hc : st.notes_count = c) (hlt : c < 100) (hlen : (cstr line).length ≤ 255) :
    ∃ st', storeLine st line = .ok st' ∧ st'.notes_count = ((c + 1 : Nat) : Int) ∧
      (∀ k : Fin 100, k.val ≠ c → st'.notes k = st.notes k) ∧
      (∀ k : Fin 100, k.val = c → noteAt st' k = cstr line) := by
  obtain ⟨r, hr, hstr⟩ := strcpy_fits (st.notes ⟨c, hlt⟩) line hlen
  refine ⟨{ notes := Function.update st.notes ⟨c, hlt⟩ r, notes_count := st.notes_count + 1 },
    ?_, ?_, ?_, ?_⟩
  · simp only [storeLine, hc, rowIndex_natCast c hlt, hr]
  · simp [hc]
  · intro k hk
    have : k ≠ ⟨c, hlt⟩ := fun e => hk (congrArg Fin.val e)
    simp [Function.update_noteq this]
  · intro k hk
    have : k = ⟨c, hlt⟩ := Fin.ext hk
    subst this
    simp [noteAt, hstr]

/-- The loop body in a full collection stores at `notes[100]`. -/
theorem storeLine_full (st : State) (line : List Byte) (h : st.notes_count = 100) :
    storeLine st line = .error (.outOfBounds 100) := by
  simp [storeLine, h, rowIndex_none]

/-! ## The loop as a whole -/

/-- Storing a list of strings that fits the free rows: the count grows by the
number of strings, the rows outside the new range keep their bytes, and the
new rows hold the strings in order. -/
theorem storeAll_ok (cs : List (List Byte)) (st : State) (c : Nat)
    (hc : st.notes_count = c) (hcap : c + cs.length ≤ 100)
    (hlen : ∀ l ∈ cs, (cstr l).length ≤ 255) :
    ∃ st', storeAll cs st = .ok st' ∧ st'.notes_count = ((c + cs.length : Nat) : Int) ∧
      (∀ k : Fin 100, k.val < c ∨ c + cs.length ≤ k.val → st'.notes k = st.notes k) ∧
      (∀ k : Fin 100, c ≤ k.val → k.val < c + cs.length →
        (cs[k.val - c]?).map cstr = some (noteAt st' k)) := by
  induction cs generalizing st c with
  | nil =>
    refine ⟨st, rfl, by simpa using hc, fun _ _ => rfl, ?_⟩
    intro k h1 h2
    simp only [List.length_nil] at h2
    omega
  | cons l m ih =>
    simp only [List.length_cons] at hcap
    obtain ⟨st1, h1, hc1, hkeep1, hnew1⟩ :=
      storeLine_ok st l c hc (by omega) (hlen l (List.mem_cons_self l m))
    obtain ⟨st2, h2, hc2, hkeep2, hnew2⟩ :=
      ih st1 (c + 1) hc1 (by omega) (fun x hx => hlen x (List.mem_cons_of_mem l hx))
    refine ⟨st2, ?_, ?_, ?_, ?_⟩
    · simp only [storeAll, h1, h2]
    · rw [hc2, List.length_cons]; congr 1; omega
    · intro k hk
      simp only [List.length_cons] at hk
      rw [hkeep2 k (by omega), hkeep1 k (by omega)]
    · intro k hk1 hk2
      simp only [List.length_cons] at hk2
      by_cases hkc : k.val = c
      · have e : noteAt st2 k = noteAt st1 k := by
          unfold noteAt; rw [hkeep2 k (by omega)]
        rw [e, hnew1 k hkc, hkc]
        simp
      · have hsub : k.val - c = (k.val - (c + 1)) + 1 := by omega
        rw [hsub, List.getElem?_cons_succ]
        exact hnew2 k (by omega) (by omega)

/-- Storing more strings than there are free rows ends in a store at
`notes[100]`. -/
theorem storeAll_overflow (cs : List (List Byte)) (st : State) (c : Nat)
    (hc : st.notes_count = c) (hle : c ≤ 100) (hover : 100 < c + cs.length)
    (hlen : ∀ l ∈ cs, (cstr l).length ≤ 255) :
    storeAll cs st = .error (.outOfBounds 100) := by
  induction cs generalizing st c with
  | nil => simp only [List.length_nil] at hover; omega
  | cons l m ih =>
    simp only [List.length_cons] at hover
    by_cases hfull : c = 100
    · subst hfull
      simp only [storeAll, storeLine_full st l hc]
    · obtain ⟨st1, h1, hc1, -, -⟩ :=
        storeLine_ok st l c hc (by omega) (hlen l (List.mem_cons_self l m))
      simp only [storeAll, h1]
      exact ih st1 (c + 1) hc1 (by omega) (by omega)
        (fun x hx => hlen x (List.mem_cons_of_mem l hx))

theorem chunks_cstr_length (file : List Byte) :
    ∀ l ∈ chunks file, (cstr l).length ≤ 255 := fun l hl =>
  le_trans (cstr_length_le l) (fgetsAll_length_bounds _ file l hl).2

/-- On a file that opens, `seisen_load_notes` is `storeAll` on the `chunks` of
the file, and prints nothing. -/
theorem seisen_load_notes_opened (fopen : String → Option (List Byte)) (filepath : String)
    (st : State) (file : List Byte) (h : fopen filepath = some file) :
    seisen_load_notes fopen filepath st =
      match storeAll (chunks file) st with
      | .error e => .error e
      | .ok st' => .ok (st', "") := by
  simp only [seisen_load_notes, h, loadLoop_eq_storeAll _ file st (Nat.lt_succ_self _)]

/-! ## Lines and chunks -/

theorem chunks_of_ne_nil (file : List Byte) (h : file ≠ []) :
    chunks file = (readLine 255 file).1 :: chunks (readLine 255 file).2 := by
  cases file with
  | nil => exact absurd rfl h
  | cons b t => exact chunks_cons b t

theorem chunks_line (content rest : List Byte) (hnl : NL ∉ content)
    (hlen : content.length ≤ 254) :
    chunks (content ++ NL :: rest) = (content ++ [NL]) :: chunks rest := by
  rw [chunks_of_ne_nil _ (by simp), readLine_line 255 content rest hnl (by omega)]

theorem chunks_last (content : List Byte) (hne : content ≠ []) (hnl : NL ∉ content)
    (hlen : content.length ≤ 255) :
    chunks content = [content] := by
  rw [chunks_of_ne_nil _ hne, readLine_eof 255 content hnl hlen, chunks_nil]

theorem WellFormedLine.split {l : List Byte} (h : WellFormedLine l) :
    l = l.dropLast ++ [NL] ∧ NL ∉ l.dropLast ∧ l.dropLast.length ≤ 254 := by
  obtain ⟨h1, h2, h3, -⟩ := h
  have e : l.dropLast ++ [NL] = l := List.dropLast_append_getLast? NL (by simp [h1])
  refine ⟨e.symm, h3, ?_⟩
  rw [List.length_dropLast]
  omega

/-- The loop copies a well-formed file line by line. -/
theorem chunks_wellFormed (lines : List (List Byte)) (h : WellFormedFile lines) :
    chunks lines.flatten = lines := by
  induction lines with
  | nil => rfl
  | cons l more ih =>
    obtain ⟨hl, hmore⟩ := h
    rcases hl with hl | ⟨rfl, hne, hlen, hnl, -⟩
    · obtain ⟨e, hnl, hlen⟩ := hl.split
      rw [List.flatten_cons, e, List.append_assoc, List.singleton_append,
        chunks_line _ _ hnl hlen, ih hmore]
    · simp only [List.flatten_cons, List.flatten_nil, List.append_nil]
      exact chunks_last l hne hnl (by omega)

theorem WellFormedFile.no_nul {lines : List (List Byte)} (h : WellFormedFile lines) :
    ∀ l ∈ lines, (0 : Byte) ∉ l := by
  induction lines with
  | nil => simp
  | cons l more ih =>
    obtain ⟨hl, hmore⟩ := h
    intro x hx
    rcases List.mem_cons.mp hx with rfl | hx
    · rcases hl with hl | ⟨-, hl⟩
      · exact hl.2.2.2
      · exact hl.2.2.2
    · exact ih hmore x hx

/-- Loading a well-formed file into a collection of `c` notes with enough free
rows: the lines are appended in order, everything else stays. -/
theorem load_lines (fopen : String → Option (List Byte)) (filepath : String)
    (st : State) (c : Nat) (lines : List (List Byte))
    (hfile : fopen filepath = some lines.flatten) (hwf : WellFormedFile lines)
    (hc : st.notes_count = c) (hcap : c + lines.length ≤ 100) :
    ∃ st', seisen_load_notes fopen filepath st = .ok (st', "") ∧
      st'.notes_count = ((c + lines.length : Nat) : Int) ∧
      (∀ k : Fin 100, k.val < c ∨ c + lines.length ≤ k.val → st'.notes k = st.notes k) ∧
      (∀ (i : Nat) (hi : i < lines.length) (hk : c + i < 100),
        noteAt st' ⟨c + i, hk⟩ = lines[i]) := by
  have hch := chunks_wellFormed lines hwf
  obtain ⟨st', h1, h2, h3, h4⟩ := storeAll_ok (chunks lines.flatten) st c hc
    (by rw [hch]; exact hcap) (chunks_cstr_length _)
  rw [hch] at h1 h2 h3 h4
  refine ⟨st', ?_, h2, h3, ?_⟩
  · rw [seisen_load_notes_opened fopen filepath st _ hfile, hch, h1]
  · intro i hi hk
    have h := h4 ⟨c + i, hk⟩ (by simp) (by simp; omega)
    simp only [Nat.add_sub_cancel_left, List.getElem?_eq_getElem hi, Option.map_some',
      Option.some.injEq] at h
    rw [← h]
    exact cstr_of_no_nul _ (hwf.no_nul _ (List.getElem_mem hi))

/-- Loading any file into a collection of `c` notes with enough free rows:
row `c + i` receives the string of the `i`-th chunk, everything else stays. -/
theorem load_chunks_ok (fopen : String → Option (List Byte)) (filepath : String)
    (st : State) (c : Nat) (file : List Byte)
    (hfile : fopen filepath = some file)
    (hc : st.notes_count = c) (hcap : c + (chunks file).length ≤ 100) :
    ∃ st', seisen_load_notes fopen filepath st = .ok (st', "") ∧
      st'.notes_count = ((c + (chunks file).length : Nat) : Int) ∧
      (∀ k : Fin 100, k.val < c ∨ c + (chunks file).length ≤ k.val →
        st'.notes k = st.notes k) ∧
      (∀ (i : Nat) (hi : i < (chunks file).length) (hk : c + i < 100),
        noteAt st' ⟨c + i, hk⟩ = cstr (chunks file)[i]) := by
  obtain ⟨st', h1, h2, h3, h4⟩ := storeAll_ok (chunks file) st c hc hcap
    (chunks_cstr_length _)
  refine ⟨st', ?_, h2, h3, ?_⟩
  · rw [seisen_load_notes_opened fopen filepath st _ hfile, h1]
  · intro i hi hk
    have h := h4 ⟨c + i, hk⟩ (by simp) (by simp; omega)
    simp only [Nat.add_sub_cancel_left, List.getElem?_eq_getElem hi, Option.map_some',
      Option.some.injEq] at h
    exact h.symm

/-- Loading a file with more chunks than free rows runs into the store at
`notes[100]`. -/
theorem load_overflow (fopen : String → Option (List Byte)) (filepath : String)
    (st : State) (c : Nat) (file : List Byte)
    (hfile : fopen filepath = some file)
    (hc : st.notes_count = c) (hle : c ≤ 100) (hover : 100 < c + (chunks file).length) :
    seisen_load_notes fopen filepath st = .error (.outOfBounds 100) := by
  rw [seisen_load_notes_opened fopen filepath st _ hfile,
    storeAll_overflow (chunks file) st c hc hle hover (chunks_cstr_length _)]

theorem chunks_no_nul (file : List Byte) (h : (0 : Byte) ∉ file) :
    ∀ l ∈ chunks file, (0 : Byte) ∉ l := by
  intro l hl h0
  apply h
  rw [← fgetsAll_flatten (file.length + 1) file (Nat.lt_succ_self _)]
  exact List.mem_flatten.mpr ⟨l, hl, h0⟩

/-- In a collection of `n` notes, `1 <= n <= 100`, `seisen_get_note` draws one
value and returns row `r % n`. -/
theorem seisen_get_note_nonempty {G : Type} (rand : G → Nat × G) (g : G)
    (st : State) (n : Nat) (hn : st.notes_count = n) (h1 : 1 ≤ n) (h100 : n ≤ 100) :
    seisen_get_note rand g st =
      (.ok (.row ⟨(rand g).1 % n, lt_of_lt_of_le (Nat.mod_lt _ h1) h100⟩), (rand g).2) := by
  have hne : (n : Int) ≠ 0 := by omega
  simp only [seisen_get_note, hn, hne, if_false, cmod, ← Int.ofNat_tmod]
  rw [rowIndex_natCast _ (lt_of_lt_of_le (Nat.mod_lt _ h1) h100)]

theorem chosenRow_eq (r : Nat) (st : State) (n : Nat) (hn : st.notes_count = n)
    (h1 : 1 ≤ n) (h100 : n ≤ 100) :
    chosenRow r st = some ⟨r % n, lt_of_lt_of_le (Nat.mod_lt _ h1) h100⟩ := by
  unfold chosenRow
  rw [seisen_get_note_nonempty (fun (_ : Unit) => (r, ())) () st n hn h1 h100]

/-- The number of generator values in `[0, randMax]` that select row `i`. -/
theorem hits_eq (randMax : Nat) (st : State) (n : Nat) (hn : st.notes_count = n)
    (h1 : 1 ≤ n) (h100 : n ≤ 100) (i : Fin 100) (hi : i.val < n) :
    hits randMax st i =
      (randMax + 1) / n + if i.val < (randMax + 1) % n then 1 else 0 := by
  have key : ∀ r : Nat, chosenRow r st = some i ↔ r ≡ i.val [MOD n] := by
    intro r
    rw [chosenRow_eq r st n hn h1 h100, Option.some.injEq, Fin.ext_iff]
    simp only [Nat.ModEq, Nat.mod_eq_of_lt hi]
  have h := Nat.count_modEq_card (randMax + 1) (by omega : 0 < n) i.val
  rw [Nat.mod_eq_of_lt hi] at h
  rw [← h]
  unfold hits
  apply le_antisymm
  · exact Nat.count_mono_left fun r hr => (key r).mp hr
  · exact Nat.count_mono_left fun r hr => (key r).mpr hr

theorem rowIndex_eq_none (i : Int) (h : rowIndex i = none) : i < 0 ∨ 100 ≤ i := by
  unfold rowIndex at h
  split at h
  · simp at h
  · omega

theorem storeLine_fault (st : State) (line : List Byte) (e : Fault)
    (hlen : (cstr line).length ≤ 255) (h : storeLine st line = .error e) :
    e = .outOfBounds st.notes_count ∧ (st.notes_count < 0 ∨ 100 ≤ st.notes_count) := by
  unfold storeLine at h
  cases hi : rowIndex st.notes_count with
  | none =>
    simp only [hi] at h
    exact ⟨(Except.error.inj h).symm, rowIndex_eq_none _ hi⟩
  | some i =>
    obtain ⟨r, hr, -⟩ := strcpy_fits (st.notes i) line hlen
    simp [hi, hr] at h

theorem storeAll_fault (cs : List (List Byte)) (st : State) (e : Fault)
    (hlen : ∀ l ∈ cs, (cstr l).length ≤ 255) (h : storeAll cs st = .error e) :
    ∃ i : Int, e = .outOfBounds i ∧ (i < 0 ∨ 100 ≤ i) := by
  induction cs generalizing st with
  | nil => simp [storeAll] at h
  | cons l m ih =>
    simp only [storeAll] at h
    cases h1 : storeLine st l with
    | error e1 =>
      simp only [h1] at h
      obtain ⟨he, hr⟩ := storeLine_fault st l e1 (hlen l (List.mem_cons_self l m)) h1
      exact ⟨st.notes_count, by rw [← Except.error.inj h, he], hr⟩
    | ok st1 =>
      simp only [h1] at h
      exact ih st1 (fun x hx => hlen x (List.mem_cons_of_mem l hx)) h

/-- The only fault `seisen_load_notes` can run into is the store in a row
outside `notes`: the loop budget is never used up and no string overruns its
row. -/
theorem seisen_load_notes_fault (fopen : String → Option (List Byte)) (filepath : String)
    (st : State) (e : Fault) (h : seisen_load_notes fopen filepath st = .error e) :
    ∃ i : Int, e = .outOfBounds i ∧ (i < 0 ∨ 100 ≤ i) := by
  cases hf : fopen filepath with
  | none => simp [seisen_load_notes, hf] at h
  | some file =>
    rw [seisen_load_notes_opened fopen filepath st file hf] at h
    cases hs : storeAll (chunks file) st with
    | error e1 =>
      simp only [hs] at h
      rw [← Except.error.inj h]
      exact storeAll_fault _ st e1 (chunks_cstr_length file) hs
    | ok st1 => simp [hs] at h

/-- In no state does `seisen_get_note` evaluate a modulo by zero. -/
theorem seisen_get_note_no_divByZero {G : Type} (rand : G → Nat × G) (g : G) (st : State) :
    (seisen_get_note rand g st).1 ≠ .error .divByZero := by
  unfold seisen_get_note
  by_cases h0 : st.notes_count = 0
  · simp [h0]
  · simp only [h0, if_false, cmod]
    cases rowIndex (Int.tmod ((rand g).1 : Int) st.notes_count) <;> simp

/-! ## The claims -/

set_option maxRecDepth 100000

/-- C1: when the open of the path fails, `seisen_load_notes` returns with the
collection as it was (same `notes_count`, same bytes in every row), having
only printed the diagnostic. -/
theorem load_open_failure_keeps_collection (fopen : String → Option (List Byte))
    (filepath : String) (st : State) (h : fopen filepath = none) :
    seisen_load_notes fopen filepath st = .ok (st, openDiagnostic) := by
  simp only [seisen_load_notes, h]

theorem load_open_failure_keeps_collection_witness :
    (fun _ => none : String → Option (List Byte)) "absent.txt" = none ∧
    seisen_load_notes (fun _ => none) "absent.txt" { init with notes_count := 7 } =
      .ok ({ init with notes_count := 7 }, "impossible d'ouvrir le fichier !") :=
  ⟨rfl, load_open_failure_keeps_collection (fun _ => none) "absent.txt"
    { init with notes_count := 7 } rfl⟩

/-- C2: in a collection of `n` notes, `1 <= n <= 100`, `seisen_get_note`
returns the address of row `r % n`, where `r` is the value the generator
delivers; that row index is below `n`, so the row is one of the loaded ones. -/
theorem get_note_returns_loaded_row {G : Type} (rand : G → Nat × G) (g : G)
    (st : State) (n : Nat) (hn : st.notes_count = n) (h1 : 1 ≤ n) (h100 : n ≤ 100) :
    ∃ i : Fin 100, seisen_get_note rand g st = (.ok (.row i), (rand g).2) ∧
      i.val = (rand g).1 % n ∧ i.val < n := by
  have hlt : (rand g).1 % n < n := Nat.mod_lt _ (by omega)
  have hne : (n : Int) ≠ 0 := by omega
  refine ⟨⟨(rand g).1 % n, by omega⟩, ?_, rfl, hlt⟩
  simp only [seisen_get_note, hn, hne, if_false, cmod, ← Int.ofNat_tmod]
  rw [rowIndex_natCast _ (by omega)]

theorem get_note_returns_loaded_row_witness :
    ({ init with notes_count := 3 } : State).notes_count = (3 : Nat) ∧
    ∃ i : Fin 100,
      seisen_get_note (fun (g : Nat) => (g, g + 1)) 41 { init with notes_count := 3 } =
        (.ok (.row i), 42) ∧ i.val = 41 % 3 ∧ i.val < 3 :=
  ⟨rfl, get_note_returns_loaded_row (fun (g : Nat) => (g, g + 1)) 41
    { init with notes_count := 3 } 3 rfl (by decide) (by decide)⟩

/-- C3: with `notes_count = 0`, `seisen_get_note` returns the address of the
sentinel literal whatever the generator and the bytes of `notes` are, and it
leaves the generator state as it was: no value is drawn, no row is read and
no modulo is evaluated. -/
theorem get_note_empty_sentinel {G : Type} (rand : G → Nat × G) (g : G)
    (st : State) (h : st.notes_count = 0) :
    seisen_get_note rand g st = (.ok (.literal sentinel), g) := by
  simp only [seisen_get_note, h, if_true]

theorem get_note_empty_sentinel_witness :
    init.notes_count = 0 ∧
    seisen_get_note (fun (g : Nat) => (g, g + 1)) 41 init =
      (.ok (.literal "Aucune note disponible"), 41) :=
  ⟨rfl, get_note_empty_sentinel (fun (g : Nat) => (g, g + 1)) 41 init rfl⟩

/-- C4: from an empty collection, loading a file of `N <= 100` well-formed
lines gives `notes_count = N` and, for every `i < N`, row `i` holds line `i`
of the file, newline included; the rows from `N` on keep their bytes, and for
`N = 0` the state is the one before the call. -/
theorem load_wellFormed_from_empty (fopen : String → Option (List Byte))
    (filepath : String) (st : State) (lines : List (List Byte))
    (hfile : fopen filepath = some lines.flatten) (hwf : WellFormedFile lines)
    (hN : lines.length ≤ 100) (hempty : st.notes_count = 0) :
    ∃ st', seisen_load_notes fopen filepath st = .ok (st', "") ∧
      st'.notes_count = (lines.length : Int) ∧
      (∀ (i : Nat) (hi : i < lines.length),
        noteAt st' ⟨i, Nat.lt_of_lt_of_le hi hN⟩ = lines[i]) ∧
      (∀ k : Fin 100, lines.length ≤ k.val → st'.notes k = st.notes k) ∧
      (lines = [] → st' = st) := by
  obtain ⟨st', h1, h2, h3, h4⟩ :=
    load_lines fopen filepath st 0 lines hfile hwf (by simpa using hempty) (by omega)
  simp only [Nat.zero_add] at h2 h3 h4
  refine ⟨st', h1, h2, ?_, fun k hk => h3 k (Or.inr hk), ?_⟩
  · intro i hi
    have h := h4 i hi (by omega)
    simpa using h
  · intro hnil
    subst hnil
    have hn : st'.notes = st.notes := funext fun k => h3 k (Or.inr (Nat.zero_le _))
    have hcnt : st'.notes_count = st.notes_count := by rw [h2, hempty]; rfl
    cases st'
    cases st
    simp only at hn hcnt
    rw [hn, hcnt]

theorem load_wellFormed_from_empty_witness :
    WellFormedFile scenario ∧ scenario.length ≤ 100 ∧ init.notes_count = 0 ∧
    ∃ st', seisen_load_notes (oneFile "notes.txt" scenario.flatten) "notes.txt" init =
        .ok (st', "") ∧
      st'.notes_count = 3 ∧
      noteAt st' 0 = ascii "Believe in yourself\n" ∧
      noteAt st' 1 = ascii "Take a break\n" ∧
      noteAt st' 2 = ascii "You did great\n" := by
  obtain ⟨st', h1, h2, h3, -, -⟩ :=
    load_wellFormed_from_empty (oneFile "notes.txt" scenario.flatten) "notes.txt" init
      scenario (if_pos rfl) (by decide) (by decide) rfl
  exact ⟨by decide, by decide, rfl, st', h1, h2, h3 0 (by decide), h3 1 (by decide),
    h3 2 (by decide)⟩

/-- C5, as stated, fails: from the initial state, loading a file of one line
(255 bytes `a` and a newline) and then an empty file, so `C = 0`, `A = 1`,
`B = 0`, ends with two notes, not one: the 255 bytes, then the newline
alone. -/
theorem load_twice_overlong_line_counts_two :
    ((loaded overlongThenEmpty "a.txt" init).bind (loaded overlongThenEmpty "b.txt")).map
        (fun s => (s.notes_count, noteAt s 0, noteAt s 1)) =
      some (2, List.replicate 255 97, [NL]) := by
  decide

/-- C5, amended: `seisen_load_notes` appends and never clears. From a collection of `c`
notes, loading a file of `A` well-formed lines and then one of `B`, with
`c + A + B <= 100`, gives `notes_count = c + A + B`; the first `c` rows keep
their bytes, rows `c .. c+A-1` hold the lines of the first file in order and
rows `c+A .. c+A+B-1` the lines of the second file in order. -/
theorem load_twice_accumulates (fopen : String → Option (List Byte))
    (pathA pathB : String) (st : State) (c : Nat) (linesA linesB : List (List Byte))
    (hA : fopen pathA = some linesA.flatten) (hB : fopen pathB = some linesB.flatten)
    (wfA : WellFormedFile linesA) (wfB : WellFormedFile linesB)
    (hc : st.notes_count = c) (hcap : c + linesA.length + linesB.length ≤ 100) :
    ∃ st1 st2, seisen_load_notes fopen pathA st = .ok (st1, "") ∧
      seisen_load_notes fopen pathB st1 = .ok (st2, "") ∧
      st2.notes_count = ((c + linesA.length + linesB.length : Nat) : Int) ∧
      (∀ k : Fin 100, k.val < c → st2.notes k = st.notes k) ∧
      (∀ (i : Nat) (hi : i < linesA.length),
        noteAt st2 ⟨c + i, by omega⟩ = linesA[i]) ∧
      (∀ (i : Nat) (hi : i < linesB.length),
        noteAt st2 ⟨c + linesA.length + i, by omega⟩ = linesB[i]) := by
  obtain ⟨st1, a1, a2, a3, a4⟩ := load_lines fopen pathA st c linesA hA wfA hc (by omega)
  obtain ⟨st2, b1, b2, b3, b4⟩ :=
    load_lines fopen pathB st1 (c + linesA.length) linesB hB wfB a2 (by omega)
  refine ⟨st1, st2, a1, b1, b2, ?_, ?_, ?_⟩
  · intro k hk
    rw [b3 k (Or.inl (by omega)), a3 k (Or.inl hk)]
  · intro i hi
    have e : noteAt st2 ⟨c + i, by omega⟩ = noteAt st1 ⟨c + i, by omega⟩ := by
      unfold noteAt
      rw [b3 _ (Or.inl (by simp; omega))]
    rw [e]
    exact a4 i hi (by omega)
  · intro i hi
    exact b4 i hi (by omega)

theorem load_twice_accumulates_witness :
    WellFormedFile scenario ∧ WellFormedFile secondFile ∧
    (withCount 2).notes_count = (2 : Nat) ∧
    2 + scenario.length + secondFile.length ≤ 100 ∧
    ∃ st1 st2, seisen_load_notes twoFiles "a.txt" (withCount 2) = .ok (st1, "") ∧
      seisen_load_notes twoFiles "b.txt" st1 = .ok (st2, "") ∧
      st2.notes_count = 7 ∧
      st2.notes 0 = (withCount 2).notes 0 ∧ st2.notes 1 = (withCount 2).notes 1 ∧
      noteAt st2 2 = ascii "Believe in yourself\n" ∧
      noteAt st2 4 = ascii "You did great\n" ∧
      noteAt st2 5 = ascii "Drink water\n" ∧
      noteAt st2 6 = ascii "Stretch" := by
  obtain ⟨st1, st2, h1, h2, h3, h4, h5, h6⟩ :=
    load_twice_accumulates twoFiles "a.txt" "b.txt" (withCount 2) 2 scenario secondFile
      rfl rfl (by decide) (by decide) rfl (by decide)
  exact ⟨by decide, by decide, rfl, by decide, st1, st2, h1, h2, h3,
    h4 0 (by decide), h4 1 (by decide), h5 0 (by decide), h5 2 (by decide),
    h6 0 (by decide), h6 1 (by decide)⟩

/-- C6, as stated, fails: before any load the returned literal is not
"No note available". -/
theorem get_note_before_load_not_english :
    (seisen_get_note (fun (g : Nat) => (g, g + 1)) 0 init).1 ≠
      .ok (.literal "No note available") := by
  intro h
  have e : (Ptr.literal sentinel) = Ptr.literal "No note available" :=
    Except.ok.inj h
  exact absurd (Ptr.literal.inj e) (by decide)

/-- C6, amended: calling `seisen_get_note` before any call to
`seisen_load_notes` returns exactly the string "Aucune note disponible", and
leaves the generator untouched. -/
theorem get_note_before_load {G : Type} (rand : G → Nat × G) (g : G) :
    seisen_get_note rand g init = (.ok (.literal "Aucune note disponible"), g) := rfl

/-- C8, as stated, fails: with `RAND_MAX = 32767` or `RAND_MAX = 2147483647`
and three notes, row 0 is selected by one more generator value than row 2. -/
theorem modulo_selection_not_uniform :
    hits 32767 (withCount 3) 0 = 10923 ∧ hits 32767 (withCount 3) 2 = 10922 ∧
    hits 2147483647 (withCount 3) 0 = 715827883 ∧
    hits 2147483647 (withCount 3) 2 = 715827882 := by
  refine ⟨?_, ?_, ?_, ?_⟩
  · rw [hits_eq 32767 (withCount 3) 3 rfl (by decide) (by decide) 0 (by decide)]; rfl
  · rw [hits_eq 32767 (withCount 3) 3 rfl (by decide) (by decide) 2 (by decide)]; rfl
  · rw [hits_eq 2147483647 (withCount 3) 3 rfl (by decide) (by decide) 0 (by decide)]; rfl
  · rw [hits_eq 2147483647 (withCount 3) 3 rfl (by decide) (by decide) 2 (by decide)]; rfl

/-- C8, amended: in a collection of `n` notes, `1 <= n <= 100`, the number of
generator values `r` in `[0, RAND_MAX]` that select row `i < n` is
`(RAND_MAX + 1) / n`, plus one when `i < (RAND_MAX + 1) % n`; so the counts of
two rows differ by at most one, and they agree when `n` divides
`RAND_MAX + 1`. -/
theorem modulo_selection_nearly_uniform (randMax : Nat) (st : State) (n : Nat)
    (hn : st.notes_count = n) (h1 : 1 ≤ n) (h100 : n ≤ 100)
    (i j : Fin 100) (hi : i.val < n) (hj : j.val < n) :
    hits randMax st i =
        (randMax + 1) / n + (if i.val < (randMax + 1) % n then 1 else 0) ∧
      hits randMax st i ≤ hits randMax st j + 1 ∧
      (n ∣ randMax + 1 → hits randMax st i = hits randMax st j) := by
  have ei := hits_eq randMax st n hn h1 h100 i hi
  have ej := hits_eq randMax st n hn h1 h100 j hj
  refine ⟨ei, ?_, ?_⟩
  · rw [ei, ej]
    split_ifs <;> omega
  · intro hdvd
    rw [ei, ej, Nat.mod_eq_zero_of_dvd hdvd]
    simp

theorem modulo_selection_nearly_uniform_witness :
    (withCount 3).notes_count = (3 : Nat) ∧
    hits 32767 (withCount 3) 0 =
        (32767 + 1) / 3 + (if (0 : Fin 100).val < (32767 + 1) % 3 then 1 else 0) ∧
      hits 32767 (withCount 3) 0 ≤ hits 32767 (withCount 3) 2 + 1 ∧
      (3 ∣ 32767 + 1 → hits 32767 (withCount 3) 0 = hits 32767 (withCount 3) 2) :=
  ⟨rfl, modulo_selection_nearly_uniform 32767 (withCount 3) 3 rfl (by decide) (by decide)
    0 2 (by decide) (by decide)⟩

/-- C9: from the initial state, loading a file of 101 lines makes
`seisen_load_notes` run `strcpy(notes[100], buffer)`, a store past the last
row of `notes`. -/
theorem load_101_lines_stores_out_of_bounds :
    seisen_load_notes (oneFile "f" lines101) "f" init = .error (.outOfBounds 100) := by
  apply load_overflow (oneFile "f" lines101) "f" init 0 lines101 (if_pos rfl) rfl
    (by decide)
  have h : chunks lines101 = List.replicate 101 [97, NL] :=
    chunks_wellFormed (List.replicate 101 [97, NL]) (by decide)
  rw [h]
  decide

/-- C10: for a file without NUL bytes, the strings `fgets` delivers to the loop
(`chunks`) are each between 1 and 255 bytes long and `strcpy` fits each, with
its NUL, into a row; every one but the last ends with a newline or is 255
bytes long without a newline; their concatenation is the file;
`seisen_load_notes` runs its loop body on exactly these strings in order; and
when the free rows suffice, it ends with these strings, in order, in the rows
from `notes_count` on. -/
theorem load_stores_chunks (file : List Byte) (hnul : (0 : Byte) ∉ file) :
    (∀ l ∈ chunks file, 1 ≤ l.length ∧ l.length ≤ 255 ∧
      ∀ dst : Row, ∃ r, strcpy dst (l ++ [0]) = some r ∧ cstr r.bytes = l) ∧
    (∀ (i : Nat) (h : i + 1 < (chunks file).length),
      ((chunks file)[i]).getLast? = some NL ∨
        (((chunks file)[i]).length = 255 ∧ NL ∉ (chunks file)[i])) ∧
    (chunks file).flatten = file ∧
    (∀ (fopen : String → Option (List Byte)) (filepath : String) (st : State),
      fopen filepath = some file →
      seisen_load_notes fopen filepath st =
        match storeAll (chunks file) st with
        | .error e => .error e
        | .ok st' => .ok (st', "")) ∧
    (∀ (fopen : String → Option (List Byte)) (filepath : String) (st : State) (c : Nat),
      fopen filepath = some file → st.notes_count = c →
      c + (chunks file).length ≤ 100 →
      ∃ st', seisen_load_notes fopen filepath st = .ok (st', "") ∧
        st'.notes_count = ((c + (chunks file).length : Nat) : Int) ∧
        ∀ (i : Nat) (hi : i < (chunks file).length) (hk : c + i < 100),
          noteAt st' ⟨c + i, hk⟩ = (chunks file)[i]) := by
  refine ⟨?_, ?_, fgetsAll_flatten _ file (Nat.lt_succ_self _),
    fun fopen filepath st hfile => seisen_load_notes_opened fopen filepath st file hfile, ?_⟩
  · intro l hl
    have hb := fgetsAll_length_bounds _ file l hl
    have hz := cstr_of_no_nul l (chunks_no_nul file hnul l hl)
    refine ⟨hb.1, hb.2, fun dst => ?_⟩
    obtain ⟨r, hr, hs⟩ := strcpy_fits dst l (chunks_cstr_length file l hl)
    exact ⟨r, hr, hs.trans hz⟩
  · intro i h
    exact fgetsAll_shape _ file i h
  · intro fopen filepath st c hfile hc hcap
    obtain ⟨st', h1, h2, -, h4⟩ := load_chunks_ok fopen filepath st c file hfile hc hcap
    refine ⟨st', h1, h2, fun i hi hk => ?_⟩
    rw [h4 i hi hk]
    exact cstr_of_no_nul _ (chunks_no_nul file hnul _ (List.getElem_mem hi))

theorem load_stores_chunks_witness :
    (0 : Byte) ∉ line255 ++ ascii "b\nc" ∧
    chunks (line255 ++ ascii "b\nc") =
      [List.replicate 255 97, [NL], ascii "b\n", ascii "c"] ∧
    (chunks (line255 ++ ascii "b\nc")).flatten = line255 ++ ascii "b\nc" ∧
    ∀ l ∈ chunks (line255 ++ ascii "b\nc"), 1 ≤ l.length ∧ l.length ≤ 255 ∧
      ∀ dst : Row, ∃ r, strcpy dst (l ++ [0]) = some r ∧ cstr r.bytes = l :=
  ⟨by decide, by decide,
    (load_stores_chunks (line255 ++ ascii "b\nc") (by decide)).2.2.1,
    (load_stores_chunks (line255 ++ ascii "b\nc") (by decide)).1⟩

end Seisen
